import Mathlib

/-!
Shallow embedding of the generic algebraic multigrid engine of this
repository (amgcl/amgcl.hpp) and of its SPAI-0 relaxation scheme
(amgcl/relaxation/spai.hpp).

Scalar model: the C++ value_type is a floating point number.  We model a
floating point value as FP, an Option over the rationals: some q is a
finite value with exact magnitude q, none stands for any non-finite value
(NaN or an infinity).  Addition, subtraction and multiplication of finite
values give finite values (rounding and overflow are idealized away);
every operation with a non-finite operand gives a non-finite result, and
division by zero gives a non-finite result, exactly as in IEEE
arithmetic.  This is the coarsest model under which the zero-denominator
behaviour of the SPAI-0 constructor is observable.

Matrices are kept over plain rationals: every stored matrix entry of the
program is a finite number.  Vectors, which receive results of divisions
through the smoother state, are lists of FP.
-/

namespace Amgcl

/-- A floating point value: some q is finite, none is non-finite (NaN or
an infinity). -/
abbrev FP := Option ℚ

/-- The finite zero value. -/
def fpZero : FP := some 0

/-- Floating point addition: finite on finite operands, non-finite
otherwise. -/
def fpAdd : FP → FP → FP
  | some a, some b => some (a + b)
  | _, _ => none

/-- Floating point subtraction. -/
def fpSub : FP → FP → FP
  | some a, some b => some (a - b)
  | _, _ => none

/-- Floating point multiplication.  A non-finite operand gives a
non-finite result (NaN times anything is NaN; an infinity times a finite
number or an infinity is non-finite, and an infinity times zero is
NaN). -/
def fpMul : FP → FP → FP
  | some a, some b => some (a * b)
  | _, _ => none

/-- Scaling by a finite program constant (the alpha and beta factors of
the backend kernels are the literals 0 and 1). -/
def fpScale (q : ℚ) (x : FP) : FP := fpMul (some q) x

theorem fpAdd_comm (a b : FP) : fpAdd a b = fpAdd b a := by
  cases a <;> cases b <;> simp [fpAdd, add_comm]

theorem fpScale_one (v : FP) : fpScale 1 v = v := by
  cases v <;> simp [fpScale, fpMul]

theorem fpScale_fpZero (q : ℚ) : fpScale q fpZero = fpZero := by
  simp [fpScale, fpMul, fpZero]

theorem fpAdd_fpZero_right (v : FP) : fpAdd v fpZero = v := by
  cases v <;> simp [fpAdd, fpZero]

theorem fpAdd_fpZero_fpZero : fpAdd fpZero fpZero = fpZero := by
  simp [fpAdd, fpZero]

theorem fpSub_fpZero_fpZero : fpSub fpZero fpZero = fpZero := by
  simp [fpSub, fpZero]

theorem fpMul_fpZero_of_finite {v : FP} (h : v ≠ none) :
    fpMul v fpZero = fpZero := by
  cases v with
  | none => exact absurd rfl h
  | some a => simp [fpMul, fpZero]

/-- A vector of floating point values. -/
abbrev Vec := List FP

/-- Map with the element index, starting the count at k.  This is the
shape of every per-row loop of the backend kernels. -/
def mapIdxF {α β : Type} (f : ℕ → α → β) : ℕ → List α → List β
  | _, [] => []
  | k, a :: as => f k a :: mapIdxF f (k + 1) as

theorem mapIdxF_length {α β : Type} (f : ℕ → α → β) :
    ∀ (k : ℕ) (l : List α), (mapIdxF f k l).length = l.length := by
  intro k l
  induction l generalizing k with
  | nil => rfl
  | cons a as ih => simp [mapIdxF, ih]

theorem mapIdxF_getD {α β : Type} (f : ℕ → α → β) (a0 : α) (b0 : β) :
    ∀ (l : List α) (k i : ℕ), i < l.length →
      (mapIdxF f k l).getD i b0 = f (k + i) (l.getD i a0) := by
  intro l
  induction l with
  | nil => intro k i h; simp at h
  | cons a as ih =>
    intro k i h
    cases i with
    | zero => simp [mapIdxF]
    | succ j =>
      have hj : j < as.length := by simpa using Nat.lt_of_succ_lt_succ h
      have hk : k + 1 + j = k + (j + 1) := by omega
      simp only [mapIdxF, List.getD_cons_succ]
      rw [ih (k + 1) j hj, hk]

/-- A sparse matrix in CSR form: per-row lists of pairs of a column index
and a finite value, plus the number of columns. -/
structure SpMat where
  cols : ℕ
  rowsData : List (List (ℕ × ℚ))
deriving DecidableEq

/-- Number of rows, the length of the row list. -/
def SpMat.rows (A : SpMat) : ℕ := A.rowsData.length

/-- The entry list of row i. -/
def SpMat.row (A : SpMat) (i : ℕ) : List (ℕ × ℚ) := A.rowsData.getD i []

/-- Dot product of one CSR row with a vector, accumulated left to right
as the kernel loops do. -/
def rowDot (r : List (ℕ × ℚ)) (x : Vec) : FP :=
  r.foldl (fun s e => fpAdd s (fpMul (some e.2) (x.getD e.1 fpZero))) fpZero

/-- Modelled from the spec: the backend residual kernel (section 4.1),
out gets rhs minus A times x; only its contract is in this repository,
the builtin backend implementation is not under src. -/
def residual (rhs : Vec) (A : SpMat) (x : Vec) : Vec :=
  mapIdxF (fun i ri => fpSub ri (rowDot (A.row i) x)) 0 rhs

/-- Modelled from the spec: the backend spmv kernel (section 4.1), y
gets a times A times x plus b times y, and with b = 0 every entry of y
is overwritten. -/
def spmv (a : ℚ) (A : SpMat) (x : Vec) (b : ℚ) (y : Vec) : Vec :=
  if b = 0 then
    A.rowsData.map (fun r => fpScale a (rowDot r x))
  else
    mapIdxF (fun i yi =>
      fpAdd (fpScale a (rowDot (A.row i) x)) (fpScale b yi)) 0 y

/-- Modelled from the spec: the backend vmul kernel (section 4.1),
elementwise y gets a times d times x plus b times y. -/
def vmul (a : ℚ) (d : Vec) (x : Vec) (b : ℚ) (y : Vec) : Vec :=
  mapIdxF (fun i yi =>
    fpAdd (fpScale a (fpMul (d.getD i fpZero) (x.getD i fpZero)))
          (fpScale b yi)) 0 y

/-- The all-zero vector (backend clear). -/
def zeroVec (n : ℕ) : Vec := List.replicate n fpZero

/-- Modelled from the spec: backend clear of a vector keeps its length
and zeroes every entry. -/
def clearVec (x : Vec) : Vec := zeroVec x.length

/-- Modelled from the spec: sort_rows (section 4.1) sorts the entries of
every row by ascending column index, stably. -/
def sortRows (A : SpMat) : SpMat :=
  ⟨A.cols, A.rowsData.map (fun r => r.mergeSort (fun p q => p.1 ≤ q.1))⟩

theorem sortRows_rows (A : SpMat) : (sortRows A).rows = A.rows := by
  simp [sortRows, SpMat.rows]

/-!
SPAI-0 relaxation (amgcl/relaxation/spai.hpp).  The constructor walks
each row once, accumulating num (the sum of the entries whose column
equals the row index) and den (the sum of squared entries), and stores
num / den.  The source divides with no guard; in IEEE arithmetic a zero
den makes the stored entry non-finite, which FP renders as none.
-/

/-- One row pass of the spai0 constructor: the pair (num, den) after
folding the row entries, starting from (0, 0). -/
def spai0Row (i : ℕ) (r : List (ℕ × ℚ)) : ℚ × ℚ :=
  r.foldl
    (fun nd e => (if e.1 = i then nd.1 + e.2 else nd.1, nd.2 + e.2 * e.2))
    (0, 0)

/-- The spai0 smoother state M: per row, num / den, non-finite when den
is zero (the source performs the division unguarded). -/
def spai0M (A : SpMat) : Vec :=
  mapIdxF
    (fun i r =>
      let nd := spai0Row i r
      if nd.2 = 0 then none else some (nd.1 / nd.2))
    0 A.rowsData

/-- spai0 apply: tmp gets the residual, then x gets x plus M times tmp
(vmul with both factors 1).  The incoming tmp is overwritten before it
is read, so it does not influence the result; the pair returned is the
new (x, tmp). -/
def spai0Apply (M : Vec) (A : SpMat) (rhs x _tmp : Vec) : Vec × Vec :=
  let t := residual rhs A x
  (vmul 1 M t 1 x, t)

/-- spai0 apply_pre delegates to the common apply. -/
def spai0ApplyPre (M : Vec) (A : SpMat) (rhs x tmp : Vec) : Vec × Vec :=
  spai0Apply M A rhs x tmp

/-- spai0 apply_post delegates to the common apply. -/
def spai0ApplyPost (M : Vec) (A : SpMat) (rhs x tmp : Vec) : Vec × Vec :=
  spai0Apply M A rhs x tmp

/-- The smoothing map of a level that carries spai0 relaxation: the
relax state is spai0M of the level matrix (the amg constructor builds
the relaxation from the same matrix it stores in the level), and the
scratch tmp does not influence the new x. -/
def spai0Smooth (A : SpMat) (rhs x : Vec) : Vec :=
  (spai0Apply (spai0M A) A rhs x x).1

/-!
The amg engine (amgcl/amgcl.hpp).  A hierarchy is a list of non-terminal
levels, finest first, followed by one terminal level.  A non-terminal
level stores its matrix and the transfer operators P and R; the scratch
vectors f, u, t of the source are pure workspace and appear here as
ordinary let bindings of the cycle.  The terminal level stores the
number of unknowns, the optionally retained coarsest matrix, and the
direct solver state.
-/

/-- Parameters of the method (amg::params). -/
structure Params where
  coarse_enough : ℕ
  npre : ℕ
  npost : ℕ
  ncycle : ℕ
  pre_cycles : ℕ
deriving DecidableEq

/-- A non-terminal level: system matrix, prolongation, restriction. -/
structure NTLevel where
  A : SpMat
  P : SpMat
  R : SpMat
deriving DecidableEq

/-- The terminal level: unknown count, the coarsest matrix when
retained, and the direct solver state.  Modelled from the spec: the
default direct coarse solver (section 2) is a dense factorization or
explicit inverse of the coarsest block, applied as a matrix-vector
product; its builtin implementation is not under src, so the solver
state is the solve matrix B and solving is B times rhs. -/
structure TermLevel where
  n : ℕ
  Aret : Option SpMat
  B : SpMat
deriving DecidableEq

/-- The whole engine: non-terminal levels, finest first, then the
terminal level. -/
structure Engine where
  levels : List NTLevel
  term : TermLevel
deriving DecidableEq

/-- Row count of the level that follows the current one (the length of
the scratch vectors f and u of that level). -/
def headRows : List NTLevel → TermLevel → ℕ
  | [], t => t.n
  | l :: _, _ => l.A.rows

/-- Direct solve at the terminal level: x is overwritten with the
solution of the coarsest system, modelled as B times rhs. -/
def termSolve (t : TermLevel) (rhs : Vec) : Vec :=
  spmv 1 t.B rhs 0 (zeroVec t.n)

/-- One iteration of the per-level loop of amg::cycle at a non-terminal
level, exactly as the source orders it: npre applications of apply_pre,
residual into t, restriction into the next f, clearing of the next u,
the recursive cycle, additive prolongation, and then npre (sic, the
source reuses prm.npre at line 378) applications of apply_post. -/
def cycleBody (prm : Params) (pre post : SpMat → Vec → Vec → Vec)
    (l : NTLevel) (recurse : Vec → Vec → Vec) (nrows : ℕ)
    (rhs v : Vec) : Vec :=
  let x1 := (fun w => pre l.A rhs w)^[prm.npre] v
  let tmp := residual rhs l.A x1
  let f := spmv 1 l.R tmp 0 (zeroVec l.R.rows)
  let u := recurse f (zeroVec nrows)
  let x2 := spmv 1 l.P u 1 x1
  (fun w => post l.A rhs w)^[prm.npre] x2

/-- amg::cycle: at the terminal level the direct solver overwrites x
with the solution for rhs; at a non-terminal level the loop body runs
ncycle times. -/
def cycle (prm : Params) (pre post : SpMat → Vec → Vec → Vec) :
    List NTLevel → TermLevel → Vec → Vec → Vec
  | [] => fun t rhs _x => termSolve t rhs
  | l :: rest => fun t rhs x =>
      (fun v =>
        cycleBody prm pre post l (cycle prm pre post rest t)
          (headRows rest t) rhs v)^[prm.ncycle] x

/-- amg::apply: when pre_cycles is nonzero, clear x and run pre_cycles
cycles; otherwise copy rhs into x. -/
def amgApply (prm : Params) (pre post : SpMat → Vec → Vec → Vec)
    (E : Engine) (rhs x : Vec) : Vec :=
  if prm.pre_cycles ≠ 0 then
    (fun v => cycle prm pre post E.levels E.term rhs v)^[prm.pre_cycles]
      (clearVec x)
  else
    rhs

/-- Modelled from the spec: one iteration of the cycle as section 4.6
words it, identical to the source body except that step 7 post-smooths
npost times. -/
def cycleSpecBody (prm : Params) (pre post : SpMat → Vec → Vec → Vec)
    (l : NTLevel) (recurse : Vec → Vec → Vec) (nrows : ℕ)
    (rhs v : Vec) : Vec :=
  let x1 := (fun w => pre l.A rhs w)^[prm.npre] v
  let tmp := residual rhs l.A x1
  let f := spmv 1 l.R tmp 0 (zeroVec l.R.rows)
  let u := recurse f (zeroVec nrows)
  let x2 := spmv 1 l.P u 1 x1
  (fun w => post l.A rhs w)^[prm.npost] x2

/-- Modelled from the spec: the recursive cycle of section 4.6. -/
def cycleSpec (prm : Params) (pre post : SpMat → Vec → Vec → Vec) :
    List NTLevel → TermLevel → Vec → Vec → Vec
  | [] => fun t rhs _x => termSolve t rhs
  | l :: rest => fun t rhs x =>
      (fun v =>
        cycleSpecBody prm pre post l (cycleSpec prm pre post rest t)
          (headRows rest t) rhs v)^[prm.ncycle] x

/-!
Hierarchy construction (the amg constructor).  The pluggable coarsening
strategy is a pair of functions: T gives the transfer operators (P, R)
of a matrix, C gives the coarse operator from (A, P, R).  The pluggable
direct solver factory S may fail, which the source surfaces as a
construction failure.  The while loop of the source is modelled with
explicit fuel; amgBuild supplies rows + 1 units, enough whenever every
coarsening step strictly shrinks the matrix, and a none result means the
loop was still running when the fuel ran out.
-/

/-- The construction failures the source can raise. -/
inductive BuildErr
  | nonSquare
  | zeroCoarse
  | solverFail
deriving DecidableEq

/-- The while loop of the amg constructor: while rows exceed
coarse_enough, take transfer operators, reject a zero-width P, push the
level and move to the sorted coarse operator; then build the terminal
level, retaining the coarsest matrix only when no level was pushed. -/
def buildLevels (T : SpMat → SpMat × SpMat)
    (C : SpMat → SpMat → SpMat → SpMat)
    (S : SpMat → Option SpMat) (prm : Params) :
    ℕ → SpMat → List NTLevel → Option (Except BuildErr Engine)
  | 0, _, _ => none
  | fuel + 1, A, acc =>
    if prm.coarse_enough < A.rows then
      let P := (T A).1
      let R := (T A).2
      if P.cols = 0 then
        some (Except.error BuildErr.zeroCoarse)
      else
        buildLevels T C S prm fuel (sortRows (C A P R)) (acc ++ [⟨A, P, R⟩])
    else
      match S A with
      | none => some (Except.error BuildErr.solverFail)
      | some B =>
          some (Except.ok
            ⟨acc, ⟨A.rows, if acc.isEmpty then some A else none, B⟩⟩)

/-- The amg constructor: reject a non-square input, sort the rows of the
copied input, and run the level loop. -/
def amgBuild (T : SpMat → SpMat × SpMat)
    (C : SpMat → SpMat → SpMat → SpMat)
    (S : SpMat → Option SpMat) (prm : Params) (M : SpMat) :
    Option (Except BuildErr Engine) :=
  if M.rows = M.cols then
    buildLevels T C S prm (M.rows + 1) (sortRows M) []
  else
    some (Except.error BuildErr.nonSquare)

/-- amg::system_matrix returns the matrix of the front level: the first
non-terminal level when one exists, otherwise the retained terminal
matrix. -/
def systemMatrix (E : Engine) : SpMat :=
  match E.levels with
  | l :: _ => l.A
  | [] => E.term.Aret.getD ⟨0, []⟩

/-!
Zero propagation.  AllZero says every entry of a vector is the exact
finite zero; AllFinite says no entry is non-finite.  The kernels map
exact zeros to exact zeros — also in IEEE arithmetic, where the
operations involved (products with 0, sums of 0, subtraction 0 - 0)
are exact — provided every smoother entry that multiplies a zero is
finite.
-/

/-- Every entry of the vector is the exact zero. -/
def AllZero (v : Vec) : Prop := ∀ e ∈ v, e = fpZero

/-- No entry of the vector is non-finite. -/
def AllFinite (v : Vec) : Prop := ∀ e ∈ v, e ≠ none

theorem allZero_zeroVec (n : ℕ) : AllZero (zeroVec n) := by
  intro e he
  simpa [zeroVec] using (List.eq_of_mem_replicate he)

theorem allZero_getD {v : Vec} (h : AllZero v) (c : ℕ) :
    v.getD c fpZero = fpZero := by
  induction v generalizing c with
  | nil => simp
  | cons a t ih =>
    cases c with
    | zero => exact h a (List.mem_cons_self a t)
    | succ m =>
      simpa using ih (fun e he => h e (List.mem_cons_of_mem a he)) m

theorem allFinite_getD {v : Vec} (h : AllFinite v) (c : ℕ) :
    v.getD c fpZero ≠ none := by
  induction v generalizing c with
  | nil => simp [fpZero]
  | cons a t ih =>
    cases c with
    | zero => exact h a (List.mem_cons_self a t)
    | succ m =>
      simpa using ih (fun e he => h e (List.mem_cons_of_mem a he)) m

theorem rowDot_allZero {x : Vec} (hx : AllZero x) (r : List (ℕ × ℚ)) :
    rowDot r x = fpZero := by
  have key : ∀ (r : List (ℕ × ℚ)) (acc : FP),
      r.foldl (fun s e => fpAdd s (fpMul (some e.2) (x.getD e.1 fpZero)))
        acc = acc := by
    intro r
    induction r with
    | nil => intro acc; rfl
    | cons e t ih =>
      intro acc
      have h1 : fpMul (some e.2) (x.getD e.1 fpZero) = fpZero := by
        rw [allZero_getD hx]
        simp [fpMul, fpZero]
      simp only [List.foldl_cons, h1, fpAdd_fpZero_right, ih]
  exact key r fpZero

theorem mapIdxF_allZero {α : Type} (f : ℕ → α → FP) (l : List α)
    (h : ∀ i a, a ∈ l → f i a = fpZero) :
    ∀ k, AllZero (mapIdxF f k l) := by
  induction l with
  | nil => intro k e he; simp [mapIdxF] at he
  | cons a t ih =>
    intro k e he
    simp only [mapIdxF, List.mem_cons] at he
    rcases he with he | he
    · rw [he]; exact h k a (List.mem_cons_self a t)
    · exact ih (fun i b hb => h i b (List.mem_cons_of_mem a hb)) (k + 1) e he

theorem residual_allZero {rhs x : Vec} (A : SpMat)
    (hrhs : AllZero rhs) (hx : AllZero x) :
    AllZero (residual rhs A x) := by
  apply mapIdxF_allZero
  intro i ri hri
  rw [hrhs ri hri, rowDot_allZero hx]
  exact fpSub_fpZero_fpZero

theorem spmv_allZero (a b : ℚ) (A : SpMat) {x y : Vec}
    (hx : AllZero x) (hy : AllZero y) :
    AllZero (spmv a A x b y) := by
  unfold spmv
  split
  · intro e he
    rcases List.mem_map.mp he with ⟨r, _, hr⟩
    rw [← hr, rowDot_allZero hx, fpScale_fpZero]
  · apply mapIdxF_allZero
    intro i yi hyi
    rw [hy yi hyi, rowDot_allZero hx, fpScale_fpZero, fpScale_fpZero]
    exact fpAdd_fpZero_fpZero

theorem vmul_allZero (a b : ℚ) {d x y : Vec}
    (hd : AllFinite d) (hx : AllZero x) (hy : AllZero y) :
    AllZero (vmul a d x b y) := by
  apply mapIdxF_allZero
  intro i yi hyi
  rw [hy yi hyi, allZero_getD hx,
    fpMul_fpZero_of_finite (allFinite_getD hd i), fpScale_fpZero,
    fpScale_fpZero]
  exact fpAdd_fpZero_fpZero

theorem termSolve_allZero (t : TermLevel) {rhs : Vec}
    (hrhs : AllZero rhs) : AllZero (termSolve t rhs) :=
  spmv_allZero 1 0 t.B hrhs (allZero_zeroVec t.n)

theorem spai0Smooth_allZero {A : SpMat} {rhs x : Vec}
    (hA : AllFinite (spai0M A)) (hrhs : AllZero rhs) (hx : AllZero x) :
    AllZero (spai0Smooth A rhs x) :=
  vmul_allZero 1 1 hA (residual_allZero A hrhs hx) hx

theorem iterate_allZero (g : Vec → Vec)
    (hg : ∀ v, AllZero v → AllZero (g v)) :
    ∀ (n : ℕ) (v : Vec), AllZero v → AllZero (g^[n] v) := by
  intro n
  induction n with
  | zero => intro v hv; simpa using hv
  | succ m ih =>
    intro v hv
    rw [Function.iterate_succ_apply]
    exact ih (g v) (hg v hv)

theorem cycle_allZero (prm : Params) (lv : List NTLevel) (t : TermLevel)
    (hM : ∀ l ∈ lv, AllFinite (spai0M l.A)) :
    ∀ rhs x, AllZero rhs → AllZero x →
      AllZero (cycle prm spai0Smooth spai0Smooth lv t rhs x) := by
  induction lv with
  | nil =>
    intro rhs x hrhs _hx
    simpa [cycle] using termSolve_allZero t hrhs
  | cons l rest ih =>
    intro rhs x hrhs hx
    have hMl : AllFinite (spai0M l.A) := hM l (List.mem_cons_self l rest)
    have hMr : ∀ q ∈ rest, AllFinite (spai0M q.A) :=
      fun q hq => hM q (List.mem_cons_of_mem l hq)
    have hbody : ∀ v, AllZero v →
        AllZero (cycleBody prm spai0Smooth spai0Smooth l
          (cycle prm spai0Smooth spai0Smooth rest t)
          (headRows rest t) rhs v) := by
      intro v hv
      unfold cycleBody
      apply iterate_allZero _
        (fun w hw => spai0Smooth_allZero hMl hrhs hw)
      apply spmv_allZero
      · apply ih hMr
        · apply spmv_allZero
          · exact residual_allZero l.A hrhs
              (iterate_allZero _
                (fun w hw => spai0Smooth_allZero hMl hrhs hw) _ _ hv)
          · exact allZero_zeroVec _
        · exact allZero_zeroVec _
      · exact iterate_allZero _
          (fun w hw => spai0Smooth_allZero hMl hrhs hw) _ _ hv
    simpa [cycle] using iterate_allZero _ hbody prm.ncycle x hx

/-!
Closed forms for the spai0 constructor: the folded pair equals the
diagonal sum and the squared-entry sum of the row.
-/

/-- The value of entry (row, j) of a CSR row: the sum of the stored
values whose column index is j. -/
def entryAt (r : List (ℕ × ℚ)) (j : ℕ) : ℚ :=
  ((r.filter (fun e => e.1 == j)).map Prod.snd).sum

/-- The sum of the squares of the stored values of a row. -/
def rowSqSum (r : List (ℕ × ℚ)) : ℚ :=
  (r.map (fun e => e.2 * e.2)).sum

theorem spai0Row_eq (i : ℕ) :
    ∀ (r : List (ℕ × ℚ)) (n d : ℚ),
      r.foldl
        (fun nd e =>
          (if e.1 = i then nd.1 + e.2 else nd.1, nd.2 + e.2 * e.2))
        (n, d) = (n + entryAt r i, d + rowSqSum r) := by
  intro r
  induction r with
  | nil => intro n d; simp [entryAt, rowSqSum]
  | cons e t ih =>
    intro n d
    by_cases h : e.1 = i
    · simp only [List.foldl_cons, if_pos h, ih]
      have h1 : entryAt (e :: t) i = e.2 + entryAt t i := by
        simp [entryAt, List.filter_cons, h]
      have h2 : rowSqSum (e :: t) = e.2 * e.2 + rowSqSum t := by
        simp [rowSqSum]
      rw [h1, h2]
      simp only [Prod.mk.injEq]
      constructor <;> ring_nf
    · simp only [List.foldl_cons, if_neg h, ih]
      have h1 : entryAt (e :: t) i = entryAt t i := by
        simp [entryAt, List.filter_cons, h]
      have h2 : rowSqSum (e :: t) = e.2 * e.2 + rowSqSum t := by
        simp [rowSqSum]
      rw [h1, h2]
      simp only [Prod.mk.injEq]
      constructor <;> ring_nf

theorem spai0M_getD (A : SpMat) (i : ℕ) (hi : i < A.rows) :
    (spai0M A).getD i fpZero =
      if rowSqSum (A.row i) = 0 then none
      else some (entryAt (A.row i) i / rowSqSum (A.row i)) := by
  unfold spai0M
  rw [mapIdxF_getD _ [] fpZero A.rowsData 0 i hi]
  have hrow : spai0Row i (A.rowsData.getD i []) =
      (entryAt (A.row i) i, rowSqSum (A.row i)) := by
    unfold spai0Row
    rw [spai0Row_eq]
    simp [SpMat.row]
  simp only [Nat.zero_add, hrow]

theorem spai0M_length (A : SpMat) : (spai0M A).length = A.rows := by
  unfold spai0M
  rw [mapIdxF_length]
  rfl

/-!
Structure of successful hierarchy construction: the produced level list
extends the accumulator; the first produced level, when one exists,
holds the matrix the loop was entered with; and the terminal level
retains a matrix exactly when the level list is empty.
-/

theorem buildLevels_shape (T : SpMat → SpMat × SpMat)
    (C : SpMat → SpMat → SpMat → SpMat) (S : SpMat → Option SpMat)
    (prm : Params) :
    ∀ (fuel : ℕ) (A : SpMat) (acc : List NTLevel) (E : Engine),
      buildLevels T C S prm fuel A acc = some (Except.ok E) →
      (E.term.Aret.isSome ↔ E.levels = []) ∧
      ∃ suffix, E.levels = acc ++ suffix ∧
        ((suffix = [] ∧ (acc = [] → E.term.Aret = some A)) ∨
         ∃ P R rest, suffix = NTLevel.mk A P R :: rest) := by
  intro fuel
  induction fuel with
  | zero => intro A acc E h; simp [buildLevels] at h
  | succ fuel ih =>
    intro A acc E h
    simp only [buildLevels] at h
    by_cases hc : prm.coarse_enough < A.rows
    · rw [if_pos hc] at h
      by_cases hp : (T A).1.cols = 0
      · rw [if_pos hp] at h
        simp at h
      · rw [if_neg hp] at h
        obtain ⟨hiff, suffix, hsplit, _hcase⟩ := ih _ _ _ h
        refine ⟨hiff, NTLevel.mk A (T A).1 (T A).2 :: suffix, ?_, ?_⟩
        · rw [hsplit, List.append_assoc]
          rfl
        · exact Or.inr ⟨(T A).1, (T A).2, suffix, rfl⟩
    · rw [if_neg hc] at h
      cases hS : S A with
      | none => rw [hS] at h; simp at h
      | some B =>
        rw [hS] at h
        simp only [Option.some.injEq, Except.ok.injEq] at h
        subst h
        refine ⟨?_, [], by simp, Or.inl ⟨rfl, ?_⟩⟩
        · cases acc <;> simp
        · intro hacc
          subst hacc
          simp

theorem buildLevels_total (T : SpMat → SpMat × SpMat)
    (C : SpMat → SpMat → SpMat → SpMat) (S : SpMat → Option SpMat)
    (prm : Params)
    (hshrink : ∀ A : SpMat, prm.coarse_enough < A.rows →
      (sortRows (C A (T A).1 (T A).2)).rows < A.rows)
    (hP : ∀ A : SpMat, prm.coarse_enough < A.rows → (T A).1.cols ≠ 0)
    (hS : ∀ A : SpMat, A.rows ≤ prm.coarse_enough → (S A).isSome) :
    ∀ (fuel : ℕ) (A : SpMat) (acc : List NTLevel), A.rows < fuel →
      ∃ E, buildLevels T C S prm fuel A acc = some (Except.ok E) := by
  intro fuel
  induction fuel with
  | zero => intro A acc hA; omega
  | succ fuel ih =>
    intro A acc hA
    by_cases hc : prm.coarse_enough < A.rows
    · simp only [buildLevels]
      rw [if_pos hc, if_neg (hP A hc)]
      apply ih
      have := hshrink A hc
      omega
    · simp only [buildLevels]
      rw [if_neg hc]
      obtain ⟨B, hB⟩ := Option.isSome_iff_exists.mp (hS A (by omega))
      rw [hB]
      exact ⟨_, rfl⟩

theorem iterate_two_apply {α : Type} (g : α → α) (v : α) :
    g^[2] v = g (g v) := rfl

theorem iterate_one_apply {α : Type} (g : α → α) (v : α) :
    g^[1] v = g v := rfl

/-!
Concrete instances used by the counterexamples and witnesses below.
-/

/-- A 1 by 1 matrix whose single row is empty (an all-zero row). -/
def zeroRow1 : SpMat := ⟨1, [[]]⟩

/-- A level and a terminal level over the 1 by 1 zero matrix. -/
def lvC1 : NTLevel := ⟨zeroRow1, zeroRow1, zeroRow1⟩

def tmC1 : TermLevel := ⟨1, none, zeroRow1⟩

/-- Parameters with npre = 2 and npost = 1, the setting that separates
the two smoothing counts. -/
def prmC1 : Params := ⟨0, 2, 1, 1, 1⟩

/-- A relaxation that leaves x alone (used as the pre-smoother so that
only the post-smoothing applications are visible). -/
def idRelax : SpMat → Vec → Vec → Vec := fun _ _ x => x

/-- A relaxation that adds one to every entry of x, so the number of its
applications can be read off the result. -/
def incRelax : SpMat → Vec → Vec → Vec :=
  fun _ _ x => x.map (fun e => fpAdd e (some 1))

/-- A 2 by 2 matrix: row 0 holds the unit diagonal entry, row 1 is
empty, so its squared-entry sum is zero. -/
def diagRow : SpMat := ⟨2, [[(0, 1)], []]⟩

/-- A 2 by 1 prolongation. -/
def pMat : SpMat := ⟨1, [[(0, 1)], []]⟩

/-- A 1 by 2 restriction. -/
def rMat : SpMat := ⟨2, [[(0, 1)]]⟩

/-- The 1 by 1 identity matrix. -/
def oneMat : SpMat := ⟨1, [[(0, 1)]]⟩

/-- A concrete coarsening: constant transfer operators of positive
width. -/
def exT : SpMat → SpMat × SpMat := fun _ => (pMat, rMat)

/-- A concrete coarse operator: the 1 by 1 identity. -/
def exC : SpMat → SpMat → SpMat → SpMat := fun _ _ _ => oneMat

/-- A direct solver factory that always succeeds, solving with the
matrix itself (exact for the 1 by 1 identity). -/
def exS : SpMat → Option SpMat := fun A => some A

/-- Default-like parameters with coarse_enough = 1. -/
def exPrm : Params := ⟨1, 1, 1, 1, 1⟩

/-- The engine that amgBuild produces from diagRow with the strategies
above: one non-terminal level and a terminal level that retains no
matrix. -/
def exEngine : Engine := ⟨[⟨diagRow, pMat, rMat⟩], ⟨1, none, oneMat⟩⟩

/-- A coarsening that never shrinks the matrix: both transfer operators
and the coarse operator are the input matrix itself. -/
def idT : SpMat → SpMat × SpMat := fun A => (A, A)

def idC : SpMat → SpMat → SpMat → SpMat := fun A _ _ => A

/-- Parameters whose coarse_enough is zero, so a 1 by 1 matrix is never
coarse enough. -/
def prmZero : Params := ⟨0, 1, 1, 1, 1⟩

/-- With the identity coarsening the construction loop never leaves the
1 by 1 matrix: it returns none (still running) for every fuel. -/
theorem buildLevels_identity_coarsening_stalls :
    ∀ (fuel : ℕ) (acc : List NTLevel),
      buildLevels idT idC exS prmZero fuel oneMat acc = none := by
  intro fuel
  induction fuel with
  | zero => intro acc; rfl
  | succ fuel ih =>
    intro acc
    have hsort : sortRows (idC oneMat (idT oneMat).1 (idT oneMat).2) =
        oneMat := by
      simp [idC, idT, oneMat, sortRows]
    simp only [buildLevels]
    rw [if_pos (by simp [prmZero, oneMat, SpMat.rows])]
    rw [if_neg (by simp [idT, oneMat])]
    rw [hsort]
    exact ih _

/-- CLAIM C1.  The claim says the post-smoothing step performs exactly
npost applications of apply_post.  The source (amgcl.hpp line 378) loops
the post-smoother prm.npre times, contradicting the declared meaning of
the npost parameter; with npre = 2, npost = 1, an identity pre-smoother
and a post-smoother that adds one per application, one cycle adds two,
while the cycle of spec section 4.6 adds one. -/
theorem cycle_post_smoothing_uses_npre :
    prmC1.npre = 2 ∧ prmC1.npost = 1 ∧
    cycle prmC1 idRelax incRelax [lvC1] tmC1 [fpZero] [fpZero] =
      [some 2] ∧
    cycleSpec prmC1 idRelax incRelax [lvC1] tmC1 [fpZero] [fpZero] =
      [some 1] := by
  refine ⟨rfl, rfl, ?_, ?_⟩ <;>
    norm_num [cycle, cycleSpec, cycleBody, cycleSpecBody, prmC1, lvC1,
      tmC1, zeroRow1, idRelax, incRelax, iterate_two_apply,
      iterate_one_apply, residual, spmv, vmul, termSolve, zeroVec,
      headRows, mapIdxF, rowDot, fpAdd, fpSub, fpMul, fpScale, fpZero,
      SpMat.rows, SpMat.row]

/-- CLAIM C2 (counterexample).  The claim states construction completes
for every square input whose coarsening steps all return a positive
width P and whose coarsest factorization succeeds.  With a coarsening
that returns the input itself as P, R and coarse operator (positive
width, never failing) and an always-succeeding solver factory, the while
loop never reaches a coarse enough level: construction does not return
an engine. -/
theorem amgBuild_nontermination_counterexample :
    amgBuild idT idC exS prmZero oneMat = none ∧
    oneMat.rows = oneMat.cols ∧
    (idT oneMat).1.cols ≠ 0 ∧
    (exS oneMat).isSome := by
  refine ⟨?_, rfl, by simp [idT, oneMat], rfl⟩
  have hsort : sortRows oneMat = oneMat := by
    simp [sortRows, oneMat]
  rw [amgBuild, if_pos (show oneMat.rows = oneMat.cols from rfl), hsort]
  exact buildLevels_identity_coarsening_stalls _ _

/-- CLAIM C2 (amended).  Provided every coarsening step also strictly
shrinks the matrix, construction fails exactly when the input is
non-square, a coarsening step yields a zero-width P, or the coarsest
factorization fails; under strategies whose P widths are positive and
whose factory always succeeds, construction returns an engine exactly
for square inputs. -/
theorem amgBuild_success_iff_square (T : SpMat → SpMat × SpMat)
    (C : SpMat → SpMat → SpMat → SpMat) (S : SpMat → Option SpMat)
    (prm : Params) (M : SpMat)
    (hshrink : ∀ A : SpMat, prm.coarse_enough < A.rows →
      (sortRows (C A (T A).1 (T A).2)).rows < A.rows)
    (hP : ∀ A : SpMat, prm.coarse_enough < A.rows → (T A).1.cols ≠ 0)
    (hS : ∀ A : SpMat, A.rows ≤ prm.coarse_enough → (S A).isSome) :
    (∃ E, amgBuild T C S prm M = some (Except.ok E)) ↔
      M.rows = M.cols := by
  constructor
  · rintro ⟨E, hE⟩
    by_contra hne
    rw [amgBuild, if_neg hne] at hE
    simp at hE
  · intro hsq
    rw [amgBuild, if_pos hsq]
    apply buildLevels_total T C S prm hshrink hP hS
    rw [sortRows_rows]
    omega

/-- Witness for the amended C2: with the concrete strictly shrinking
strategies, construction of the square diagRow succeeds. -/
theorem amgBuild_success_iff_square_witness :
    diagRow.rows = diagRow.cols ∧
    ∃ E, amgBuild exT exC exS exPrm diagRow = some (Except.ok E) := by
  refine ⟨rfl, ?_⟩
  apply (amgBuild_success_iff_square exT exC exS exPrm diagRow ?_ ?_ ?_).mpr
  · rfl
  · intro A h
    simpa [exC, exT, sortRows, oneMat, SpMat.rows] using h
  · intro A h
    simp [exT, pMat]
  · intro A h
    rfl

/-- CLAIM C3.  amg::apply with nonzero pre_cycles clears x and runs
exactly pre_cycles cycles on (rhs, cleared x); with pre_cycles zero it
copies rhs into x and runs no cycle. -/
theorem amgApply_pre_cycles_semantics (prm : Params)
    (pre post : SpMat → Vec → Vec → Vec) (E : Engine) (rhs x : Vec) :
    (0 < prm.pre_cycles →
      amgApply prm pre post E rhs x =
        (fun v =>
          cycle prm pre post E.levels E.term rhs v)^[prm.pre_cycles]
          (zeroVec x.length)) ∧
    (prm.pre_cycles = 0 → amgApply prm pre post E rhs x = rhs) := by
  constructor
  · intro h
    rw [amgApply, if_pos (by omega)]
    rfl
  · intro h
    rw [amgApply, if_neg (by omega)]

/-- Witness for C3 at a concrete engine and parameters. -/
theorem amgApply_pre_cycles_semantics_witness :
    0 < exPrm.pre_cycles ∧
    amgApply exPrm idRelax idRelax exEngine [fpZero] [fpZero] =
      (fun v =>
        cycle exPrm idRelax idRelax exEngine.levels exEngine.term
          [fpZero] v)^[exPrm.pre_cycles]
        (zeroVec ([fpZero] : Vec).length) :=
  ⟨by decide,
    (amgApply_pre_cycles_semantics exPrm idRelax idRelax exEngine
      [fpZero] [fpZero]).1 (by decide)⟩

/-- CLAIM C4.  A cycle at the terminal level hands rhs to the direct
solver and overwrites x with the solution; at a non-terminal level each
of the ncycle iterations runs the steps of spec section 4.6 in the fixed
order pre-smooth, residual, restrict, clear, recurse, prolongate,
post-smooth.  The comparison patches the post-smoothing count of the
spec cycle to the npre count the source uses; the order and the steps
coincide. -/
theorem cycle_order_matches_spec (prm : Params)
    (pre post : SpMat → Vec → Vec → Vec) (lv : List NTLevel)
    (t : TermLevel) (rhs x : Vec) :
    cycle prm pre post [] t rhs x = termSolve t rhs ∧
    cycle prm pre post lv t rhs x =
      cycleSpec { prm with npost := prm.npre } pre post lv t rhs x := by
  refine ⟨rfl, ?_⟩
  induction lv generalizing rhs x with
  | nil => rfl
  | cons l rest ih =>
    have hrecf : cycle prm pre post rest t =
        cycleSpec { prm with npost := prm.npre } pre post rest t :=
      funext fun f => funext fun u => ih f u
    have hb : ∀ v,
        cycleBody prm pre post l (cycle prm pre post rest t)
          (headRows rest t) rhs v =
        cycleSpecBody { prm with npost := prm.npre } pre post l
          (cycleSpec { prm with npost := prm.npre } pre post rest t)
          (headRows rest t) rhs v := by
      intro v
      simp only [cycleBody, cycleSpecBody]
      rw [hrecf]
    simp only [cycle, cycleSpec]
    exact congrFun (congrArg (fun g => g^[prm.ncycle]) (funext hb)) x

/-- CLAIM C5.  For every row whose squared-entry sum is nonzero, the
spai0 constructor stores the diagonal value divided by the squared-entry
sum; one sweep computes the residual into tmp and adds M times tmp to x
elementwise. -/
theorem spai0_construction_and_sweep (A : SpMat) (rhs x tmp : Vec)
    (i : ℕ) (hi : i < A.rows) (hden : rowSqSum (A.row i) ≠ 0)
    (hix : i < x.length) :
    (spai0M A).getD i fpZero =
      some (entryAt (A.row i) i / rowSqSum (A.row i)) ∧
    (spai0Apply (spai0M A) A rhs x tmp).2 = residual rhs A x ∧
    ((spai0Apply (spai0M A) A rhs x tmp).1).getD i fpZero =
      fpAdd (x.getD i fpZero)
        (fpMul ((spai0M A).getD i fpZero)
          ((residual rhs A x).getD i fpZero)) := by
  refine ⟨?_, rfl, ?_⟩
  · rw [spai0M_getD A i hi, if_neg hden]
  · show (vmul 1 (spai0M A) (residual rhs A x) 1 x).getD i fpZero = _
    unfold vmul
    rw [mapIdxF_getD _ fpZero fpZero x 0 i hix]
    simp only [Nat.zero_add, fpScale_one]
    exact fpAdd_comm _ _

/-- Witness for C5 at the 1 by 1 identity matrix. -/
theorem spai0_construction_and_sweep_witness :
    (spai0M oneMat).getD 0 fpZero =
      some (entryAt (oneMat.row 0) 0 / rowSqSum (oneMat.row 0)) ∧
    (spai0Apply (spai0M oneMat) oneMat [fpZero] [fpZero] [fpZero]).2 =
      residual [fpZero] oneMat [fpZero] ∧
    ((spai0Apply (spai0M oneMat) oneMat [fpZero] [fpZero]
        [fpZero]).1).getD 0 fpZero =
      fpAdd (([fpZero] : Vec).getD 0 fpZero)
        (fpMul ((spai0M oneMat).getD 0 fpZero)
          ((residual [fpZero] oneMat [fpZero]).getD 0 fpZero)) :=
  spai0_construction_and_sweep oneMat [fpZero] [fpZero] [fpZero] 0
    (by norm_num [oneMat, SpMat.rows])
    (by norm_num [rowSqSum, oneMat, SpMat.row])
    (by norm_num)

/-- CLAIM C6 (counterexample).  The claim says a zero squared-entry sum
makes the stored entry the finite zero and never a non-finite value.
On the 1 by 1 matrix with an empty row the source divides zero by zero,
so the stored entry is non-finite, not the finite zero. -/
theorem spai0_zero_row_counterexample :
    rowSqSum (zeroRow1.row 0) = 0 ∧
    (spai0M zeroRow1).getD 0 fpZero = none ∧
    (none : FP) ≠ fpZero := by
  refine ⟨rfl, ?_, by simp [fpZero]⟩
  norm_num [spai0M, mapIdxF, spai0Row, zeroRow1]

/-- CLAIM C6 (amended).  For every row whose squared-entry sum is zero
the spai0 constructor performs the division anyway and stores a
non-finite entry; construction is total (it produces an entry for every
row) and surfaces nothing to the caller. -/
theorem spai0_zero_row_nonfinite (A : SpMat) (i : ℕ) (hi : i < A.rows)
    (hden : rowSqSum (A.row i) = 0) :
    (spai0M A).getD i fpZero = none ∧
    (spai0M A).length = A.rows := by
  refine ⟨?_, spai0M_length A⟩
  rw [spai0M_getD A i hi, if_pos hden]

/-- Witness for the amended C6 at the second row of diagRow. -/
theorem spai0_zero_row_nonfinite_witness :
    (spai0M diagRow).getD 1 fpZero = none ∧
    (spai0M diagRow).length = diagRow.rows :=
  spai0_zero_row_nonfinite diagRow 1
    (by norm_num [diagRow, SpMat.rows]) rfl

/-- Construction of the concrete two-level hierarchy: shared evaluation
used by the counterexample of C7 and the witness of C8. -/
theorem exBuild_eval :
    amgBuild exT exC exS exPrm diagRow = some (Except.ok exEngine) := by
  norm_num [amgBuild, buildLevels, sortRows, List.mergeSort, exT, exC,
    exS, exPrm, diagRow, pMat, rMat, oneMat, exEngine, SpMat.rows]

set_option maxHeartbeats 3200000 in
/-- CLAIM C7 (counterexample).  The claim asserts every constructed
engine maps a zero right-hand side to the exact zero vector.  The
engine built from diagRow has a fine level with an all-zero row, so its
spai0 state holds a non-finite entry; one application of the smoother
to the zero vector leaves a non-finite component in x, and apply on a
zero rhs does not return the zero vector. -/
theorem apply_zero_rhs_nan_counterexample :
    amgBuild exT exC exS exPrm diagRow = some (Except.ok exEngine) ∧
    0 < exPrm.pre_cycles ∧
    amgApply exPrm spai0Smooth spai0Smooth exEngine
        [fpZero, fpZero] [fpZero, fpZero] ≠ [fpZero, fpZero] := by
  refine ⟨exBuild_eval, by decide, ?_⟩
  have hM : spai0M diagRow = [some 1, none] := by
    norm_num [spai0M, spai0Row, mapIdxF, diagRow]
  have h1 : residual [fpZero, fpZero] diagRow [fpZero, fpZero] =
      [fpZero, fpZero] := by
    norm_num [residual, mapIdxF, rowDot, diagRow, SpMat.row, fpSub,
      fpMul, fpAdd, fpZero]
  have h2 : vmul 1 [some 1, none] [fpZero, fpZero] 1 [fpZero, fpZero] =
      [fpZero, none] := by
    norm_num [vmul, mapIdxF, fpAdd, fpMul, fpScale, fpZero]
  have hsmooth1 :
      spai0Smooth diagRow [fpZero, fpZero] [fpZero, fpZero] =
        [fpZero, none] := by
    simp only [spai0Smooth, spai0Apply, hM, h1, h2]
  have h3 : residual [fpZero, fpZero] diagRow [fpZero, none] =
      [fpZero, fpZero] := by
    norm_num [residual, mapIdxF, rowDot, diagRow, SpMat.row, fpSub,
      fpMul, fpAdd, fpZero]
  have h4 : vmul 1 [some 1, none] [fpZero, fpZero] 1 [fpZero, none] =
      [fpZero, none] := by
    norm_num [vmul, mapIdxF, fpAdd, fpMul, fpScale, fpZero]
  have hsmooth2 :
      spai0Smooth diagRow [fpZero, fpZero] [fpZero, none] =
        [fpZero, none] := by
    simp only [spai0Smooth, spai0Apply, hM, h3, h4]
  have h5 : spmv 1 rMat [fpZero, fpZero] 0 (zeroVec rMat.rows) =
      [fpZero] := by
    norm_num [spmv, rMat, rowDot, fpScale, fpMul, fpAdd, fpZero]
  have h6 : termSolve ⟨1, none, oneMat⟩ [fpZero] = [fpZero] := by
    norm_num [termSolve, spmv, oneMat, rowDot, fpScale, fpMul, fpAdd,
      fpZero, zeroVec, List.replicate]
  have h7 : spmv 1 pMat [fpZero] 1 [fpZero, none] = [fpZero, none] := by
    norm_num [spmv, pMat, mapIdxF, SpMat.row, rowDot, fpScale, fpMul,
      fpAdd, fpZero]
  have hclear : clearVec ([fpZero, fpZero] : Vec) = [fpZero, fpZero] := by
    norm_num [clearVec, zeroVec, List.replicate]
  have hcy : cycle exPrm spai0Smooth spai0Smooth [⟨diagRow, pMat, rMat⟩]
      ⟨1, none, oneMat⟩ [fpZero, fpZero] [fpZero, fpZero] =
      [fpZero, none] := by
    show spai0Smooth diagRow [fpZero, fpZero]
        (spmv 1 pMat
          (termSolve ⟨1, none, oneMat⟩
            (spmv 1 rMat
              (residual [fpZero, fpZero] diagRow
                (spai0Smooth diagRow [fpZero, fpZero] [fpZero, fpZero]))
              0 (zeroVec rMat.rows)))
          1 (spai0Smooth diagRow [fpZero, fpZero] [fpZero, fpZero]))
      = [fpZero, none]
    rw [hsmooth1, h3, h5, h6, h7, hsmooth2]
  rw [amgApply, if_pos (by decide)]
  show cycle exPrm spai0Smooth spai0Smooth [⟨diagRow, pMat, rMat⟩]
      ⟨1, none, oneMat⟩ [fpZero, fpZero] (clearVec [fpZero, fpZero]) ≠
    [fpZero, fpZero]
  rw [hclear, hcy]
  simp [fpZero]

/-- CLAIM C7 (amended).  For every engine whose non-terminal levels all
have finite spai0 state (no level matrix has a row with zero
squared-entry sum) and pre_cycles at least one, apply on an all-zero
right-hand side returns a vector whose every entry is the exact zero. -/
theorem amgApply_zero_rhs_exact_zero (prm : Params) (E : Engine)
    (rhs x : Vec) (hpc : 0 < prm.pre_cycles)
    (hM : ∀ l ∈ E.levels, AllFinite (spai0M l.A))
    (hrhs : AllZero rhs) :
    AllZero (amgApply prm spai0Smooth spai0Smooth E rhs x) := by
  rw [amgApply, if_pos (by omega)]
  exact iterate_allZero _
    (fun v hv => cycle_allZero prm E.levels E.term hM rhs v hrhs hv)
    prm.pre_cycles (clearVec x) (allZero_zeroVec x.length)

/-- Witness for the amended C7 on a single-level engine. -/
theorem amgApply_zero_rhs_exact_zero_witness :
    AllZero (amgApply exPrm spai0Smooth spai0Smooth
      ⟨[], ⟨1, some oneMat, oneMat⟩⟩ [fpZero] [fpZero]) :=
  amgApply_zero_rhs_exact_zero exPrm ⟨[], ⟨1, some oneMat, oneMat⟩⟩
    [fpZero] [fpZero] (by decide) (by simp) (by simp [AllZero])

/-- CLAIM C8.  After a successful construction the terminal level
retains the coarsest matrix exactly when it is the only level, and
system_matrix returns the finest-level operator, the row-sorted copy of
the input. -/
theorem terminal_retention_and_system_matrix
    (T : SpMat → SpMat × SpMat) (C : SpMat → SpMat → SpMat → SpMat)
    (S : SpMat → Option SpMat) (prm : Params) (M : SpMat) (E : Engine)
    (h : amgBuild T C S prm M = some (Except.ok E)) :
    (E.term.Aret.isSome ↔ E.levels = []) ∧
    systemMatrix E = sortRows M := by
  have hsq : M.rows = M.cols := by
    by_contra hne
    rw [amgBuild, if_neg hne] at h
    simp at h
  rw [amgBuild, if_pos hsq] at h
  obtain ⟨lv, tm⟩ := E
  obtain ⟨hiff, suffix, hsplit, hcase⟩ :=
    buildLevels_shape T C S prm (M.rows + 1) (sortRows M) [] ⟨lv, tm⟩ h
  refine ⟨hiff, ?_⟩
  rcases hcase with ⟨hsuf, hret⟩ | ⟨P, R, rest, hsuf⟩
  · have hlv : lv = [] := by
      simpa [hsuf] using hsplit
    subst hlv
    have hr : tm.Aret = some (sortRows M) := hret rfl
    simp [systemMatrix, hr]
  · have hlv : lv = NTLevel.mk (sortRows M) P R :: rest := by
      simpa [hsuf] using hsplit
    subst hlv
    simp [systemMatrix]

/-- Witness for C8 on the concrete two-level construction. -/
theorem terminal_retention_and_system_matrix_witness :
    (exEngine.term.Aret.isSome ↔ exEngine.levels = []) ∧
    systemMatrix exEngine = sortRows diagRow :=
  terminal_retention_and_system_matrix exT exC exS exPrm diagRow
    exEngine exBuild_eval

/-- CLAIM C9.  spai0 apply_pre and apply_post both delegate to the one
common apply, so pre- and post-smoothing are the same map on (x, tmp) at
every input. -/
theorem spai0_pre_post_alias (M : Vec) (A : SpMat) (rhs x tmp : Vec) :
    spai0ApplyPre M A rhs x tmp = spai0Apply M A rhs x tmp ∧
    spai0ApplyPost M A rhs x tmp = spai0Apply M A rhs x tmp :=
  ⟨rfl, rfl⟩

/-- Parameters with ncycle = 0. -/
def prmNoCycle : Params := ⟨0, 1, 1, 0, 1⟩

/-- CLAIM C10.  With ncycle = 0 a cycle at a non-terminal level leaves
x unchanged (the per-level loop body never runs), while at the terminal
level the direct solver still runs and overwrites x with the solution
for rhs, independent of ncycle. -/
theorem cycle_ncycle_zero_frame (prm : Params)
    (pre post : SpMat → Vec → Vec → Vec) (l : NTLevel)
    (rest : List NTLevel) (t : TermLevel) (rhs x : Vec)
    (hn : prm.ncycle = 0) :
    cycle prm pre post (l :: rest) t rhs x = x ∧
    cycle prm pre post [] t rhs x = termSolve t rhs := by
  refine ⟨?_, rfl⟩
  simp only [cycle, hn]
  rfl

/-- Witness for C10 at a concrete hierarchy, right-hand side and x. -/
theorem cycle_ncycle_zero_frame_witness :
    prmNoCycle.ncycle = 0 ∧
    (cycle prmNoCycle idRelax idRelax [lvC1] tmC1 [fpZero] [some 5] =
        [some 5] ∧
      cycle prmNoCycle idRelax idRelax [] tmC1 [fpZero] [some 5] =
        termSolve tmC1 [fpZero]) :=
  ⟨rfl,
    cycle_ncycle_zero_frame prmNoCycle idRelax idRelax lvC1 [] tmC1
      [fpZero] [some 5] rfl⟩

end Amgcl
